import Mathlib

/-!
# pxar: pixel address codec and DTB emulator DAQ channels

A shallow embedding of `core/api/datatypes.h` (class `pixel`) and of the DAQ part of
`core/emulator/rpc_calls.cpp` (class `CTestboard`), followed by theorems about them.

Conventions of the embedding:
* `uint8_t`, `uint16_t`, `uint32_t`, `size_t` values are `Nat`; `int32_t` values are `Int`.
  A conversion to `uint8_t` is written `toUInt8`.
* `std::vector<T>` is `List T`; `v.at(i)` is a lookup that raises `Fault.out_of_range`.
* a member function of `CTestboard` takes the test board and returns the test board after
  the call together with its result; the board is returned also when the call faults, as a
  C++ exception leaves the object as it was when it was thrown.
-/

namespace pxar

/-! ## datatypes.h : class pixel -/

/-- Conversion of an `int` to `uint8_t` (reduction modulo 256). -/
def toUInt8 (x : Int) : Nat := (x % 256).toNat

/-- Class `pixel`: three `uint8_t` members and the `int32_t` member `value`. -/
structure pixel where
  roc_id : Nat
  column : Nat
  row : Nat
  value : Int
  deriving DecidableEq, Repr

/-- The member `pixel::decode(int32_t address)`:
`roc_id = (address>>16)&15; column = (address>>8)&63; row = (address)&127;`
on a two's complement `int` (`>>` is the arithmetic shift, `&` is `Int.land`). -/
def pixel.decode (p : pixel) (address : Int) : pixel :=
  { p with
    roc_id := toUInt8 (Int.land (address >>> (16 : Nat)) 15)
    column := toUInt8 (Int.land (address >>> (8 : Nat)) 63)
    row := toUInt8 (Int.land address 127) }

/-- The member `pixel::decodeRaw(uint32_t raw)`. The `int` locals `c` and `r` only hold
non-negative values (they are computed in unsigned arithmetic), `80 - r/2` is an `int`
that is converted to the `uint8_t` member `row`. -/
def pixel.decodeRaw (p : pixel) (raw : Nat) : pixel :=
  let value : Int := (((raw &&& 0x0f) + ((raw >>> 1) &&& 0xf0) : Nat) : Int)
  let c : Nat := (raw >>> 21) &&& 7
  let c : Nat := c * 6 + ((raw >>> 18) &&& 7)
  let r : Nat := (raw >>> 15) &&& 7
  let r : Nat := r * 6 + ((raw >>> 12) &&& 7)
  let r : Nat := r * 6 + ((raw >>> 9) &&& 7)
  { p with
    value := value
    row := toUInt8 (80 - ((r / 2 : Nat) : Int))
    column := toUInt8 (((2 * c + (r &&& 1) : Nat) : Int)) }

/-- The default constructor `pixel()`. -/
def pixel.default : pixel := { roc_id := 0, column := 0, row := 0, value := 0 }

/-- The constructor `pixel(int32_t address, int32_t data) : value(data) { decode(address); }`.
The three members that the initialiser list leaves out are all assigned by `decode`. -/
def pixel.ofAddress (address data : Int) : pixel :=
  pixel.decode { roc_id := 0, column := 0, row := 0, value := data } address

/-- The constructor `pixel(uint32_t rawdata) : roc_id(0) { decodeRaw(rawdata); }`.
The three members that the initialiser list leaves out are all assigned by `decodeRaw`. -/
def pixel.ofRaw (rawdata : Nat) : pixel :=
  pixel.decodeRaw { roc_id := 0, column := 0, row := 0, value := 0 } rawdata

/-- The re-encoding the specification compares `decode` with (the source has no encoder):
the word that carries `roc_id`, `column` and `row` at the bit positions `decode` reads
them from, `(roc_id << 16) | (column << 8) | row`. -/
def pixel.encode (p : pixel) : Nat :=
  (p.roc_id <<< 16) ||| (p.column <<< 8) ||| p.row

/-- The row accumulator `r` of `decodeRaw`. -/
def rawRowGroup (raw : Nat) : Nat :=
  ((((raw >>> 15) &&& 7) * 6 + ((raw >>> 12) &&& 7)) * 6) + ((raw >>> 9) &&& 7)

/-- The column accumulator `c` of `decodeRaw`. -/
def rawColGroup (raw : Nat) : Nat :=
  ((raw >>> 21) &&& 7) * 6 + ((raw >>> 18) &&& 7)

/-! ## Faults and outcomes of calls -/

/-- The two ways a call can fail to return: `out_of_range` is the `std::out_of_range`
exception thrown by `std::vector::at`; `division_by_zero` is the execution of an integer
division whose divisor is zero, which is undefined behaviour in C++ (no exception, no
return value). -/
inductive Fault where
  | out_of_range
  | division_by_zero
  deriving DecidableEq, Repr

/-- What a call returns: a value or a fault. -/
inductive Ret (α : Type) where
  | ok (value : α)
  | fault (f : Fault)
  deriving DecidableEq, Repr

/-- The state after a call together with what the call returned. -/
structure Outcome (σ : Type) (α : Type) where
  result : Ret α
  state : σ
  deriving DecidableEq, Repr

/-! ## datatypes.h : class rawEvent -/

/-- Class `rawEvent`: the `std::vector<uint16_t> data` and the `unsigned int flags`
(bit 0 = misaligned start, bit 1 = no end detected, bit 2 = overflow). -/
structure rawEvent where
  data : List Nat
  flags : Nat
  deriving DecidableEq, Repr

namespace rawEvent

/-- `SetStartError() { flags |= 1; }`. -/
def SetStartError (e : rawEvent) : rawEvent := { e with flags := e.flags ||| 1 }

/-- `SetEndError() { flags |= 2; }`. -/
def SetEndError (e : rawEvent) : rawEvent := { e with flags := e.flags ||| 2 }

/-- `SetOverflow() { flags |= 4; }`. -/
def SetOverflow (e : rawEvent) : rawEvent := { e with flags := e.flags ||| 4 }

/-- `ResetStartError() { flags &= ~1; }`; `~1` converted to `unsigned int` is
`0xFFFFFFFE`. -/
def ResetStartError (e : rawEvent) : rawEvent := { e with flags := e.flags &&& 0xFFFFFFFE }

/-- `ResetEndError() { flags &= ~2; }`. -/
def ResetEndError (e : rawEvent) : rawEvent := { e with flags := e.flags &&& 0xFFFFFFFD }

/-- `ResetOverflow() { flags &= ~4; }`. -/
def ResetOverflow (e : rawEvent) : rawEvent := { e with flags := e.flags &&& 0xFFFFFFFB }

/-- `Clear() { flags = 0; data.clear(); }`. -/
def Clear (e : rawEvent) : rawEvent := { e with flags := 0, data := e.data.take 0 }

/-- `IsStartError() { return (flags & 1) != 0; }`. -/
def IsStartError (e : rawEvent) : Bool := (e.flags &&& 1) != 0

/-- `IsEndError() { return (flags & 2) != 0; }`. -/
def IsEndError (e : rawEvent) : Bool := (e.flags &&& 2) != 0

/-- `IsOverflow() { return (flags & 4) != 0; }`. -/
def IsOverflow (e : rawEvent) : Bool := (e.flags &&& 4) != 0

/-- `unsigned int GetSize() { return data.size(); }`. -/
def GetSize (e : rawEvent) : Nat := e.data.length % 2 ^ 32

/-- `Add(uint16_t value) { data.push_back(value); }`. -/
def Add (e : rawEvent) (value : Nat) : rawEvent := { e with data := e.data ++ [value] }

/-- `uint16_t operator[](int index) { return data.at(index); }`: a negative `index`
becomes a huge unsigned index, which `at` rejects. -/
def index (e : rawEvent) (index : Int) : Ret Nat :=
  if index < 0 then .fault .out_of_range
  else
    match e.data[index.toNat]? with
    | none => .fault .out_of_range
    | some w => .ok w

end rawEvent

/-! ## rpc_calls.cpp : the test board -/

/-- The data members of `CTestboard` that `rpc_calls.cpp` uses: `daq_buffer` is a
`std::vector<std::vector<uint16_t>>`, `daq_status` a `std::vector<bool>`, `roci2c` a
`std::vector<uint8_t>`, `tbmtype` a `uint8_t` and `nrocs_loops` a `size_t`. -/
structure CTestboard where
  daq_buffer : List (List Nat)
  daq_status : List Bool
  roci2c : List Nat
  tbmtype : Nat
  nrocs_loops : Nat
  deriving DecidableEq, Repr

/-- The type of `fillRawData` (declared in `generator.h`, which is not among the sources):
it is called as `fillRawData(event, buffer, tbmtype, roc_per_ch, flag, col, row)` and as
`fillRawData(event, buffer, tbmtype, roc_per_ch, flag, col, row, flags)` and works on the
buffer it is given by reference; here it takes the buffer and returns the buffer after the
call, and the last argument is `none` where the call leaves it out. -/
abbrev FillRawData : Type :=
  Nat → List Nat → Nat → Nat → Bool → Nat → Nat → Option Nat → List Nat

/-- Modelled from the spec: `constants.h` is not among the sources; the spec gives the
sensor grid as 52 columns by 80 rows. -/
def ROC_NUMCOLS : Nat := 52

/-- Modelled from the spec: `constants.h` is not among the sources; the spec gives the
sensor grid as 52 columns by 80 rows. -/
def ROC_NUMROWS : Nat := 80

/-- A `for (size_t i = 0; i < n; i++) body` loop over a state, started at index `i` with
`k` iterations to go; a fault in the body ends the loop. -/
def forLoopFrom {σ : Type} (body : Nat → σ → Outcome σ Unit) : Nat → Nat → σ → Outcome σ Unit
  | 0, _, s => ⟨.ok (), s⟩
  | k + 1, i, s =>
    match body i s with
    | ⟨.ok _, s1⟩ => forLoopFrom body k (i + 1) s1
    | ⟨.fault f, s1⟩ => ⟨.fault f, s1⟩

/-- The loop `for (size_t i = 0; i < n; i++) body`. -/
def forLoop {σ : Type} (n : Nat) (body : Nat → σ → Outcome σ Unit) (s : σ) : Outcome σ Unit :=
  forLoopFrom body n 0 s

namespace CTestboard

/-- `CTestboard::Daq_Open(uint32_t buffersize, uint8_t channel)`. The parameter `capacity`
stands for the standard library: `capacity q n` is what `capacity()` reports for a vector
holding `q` after `reserve(n)`, which leaves the contents as they are. The return type is
`uint32_t`. -/
def Daq_Open (capacity : List Nat → Nat → Nat) (tb : CTestboard) (buffersize channel : Nat) :
    Outcome CTestboard Nat :=
  if channel > tb.daq_buffer.length then ⟨.ok 0, tb⟩
  else
    match tb.daq_buffer[channel]? with
    | none => ⟨.fault .out_of_range, tb⟩
    | some q => ⟨.ok (capacity q (buffersize / 2) % 2 ^ 32), tb⟩

/-- `CTestboard::Daq_Close(uint8_t channel)`:
`daq_buffer.at(channel).clear(); daq_status.at(channel) = false;`. -/
def Daq_Close (tb : CTestboard) (channel : Nat) : Outcome CTestboard Unit :=
  match tb.daq_buffer[channel]? with
  | none => ⟨.fault .out_of_range, tb⟩
  | some _ =>
    let tb1 := { tb with daq_buffer := tb.daq_buffer.set channel [] }
    match tb1.daq_status[channel]? with
    | none => ⟨.fault .out_of_range, tb1⟩
    | some _ => ⟨.ok (), { tb1 with daq_status := tb1.daq_status.set channel false }⟩

/-- `CTestboard::Daq_Start(uint8_t channel)`: `daq_status.at(channel) = true;`. -/
def Daq_Start (tb : CTestboard) (channel : Nat) : Outcome CTestboard Unit :=
  match tb.daq_status[channel]? with
  | none => ⟨.fault .out_of_range, tb⟩
  | some _ => ⟨.ok (), { tb with daq_status := tb.daq_status.set channel true }⟩

/-- `CTestboard::Daq_Stop(uint8_t rpc_par1)`: the body only writes a log line. -/
def Daq_Stop (tb : CTestboard) (_rpc_par1 : Nat) : Outcome CTestboard Unit :=
  ⟨.ok (), tb⟩

/-- `CTestboard::Daq_GetSize(uint8_t channel)`; the return type is `uint32_t`. -/
def Daq_GetSize (tb : CTestboard) (channel : Nat) : Outcome CTestboard Nat :=
  match tb.daq_status[channel]? with
  | none => ⟨.fault .out_of_range, tb⟩
  | some true =>
    match tb.daq_buffer[channel]? with
    | none => ⟨.fault .out_of_range, tb⟩
    | some q => ⟨.ok (q.length % 2 ^ 32), tb⟩
  | some false => ⟨.ok 0, tb⟩

/-- The outcome of `Daq_Read`: the returned `uint8_t` or the fault, the reference
parameters `data` and `available` after the call, and the test board after the call. -/
structure ReadOutcome where
  result : Ret Nat
  data : List Nat
  available : Nat
  state : CTestboard
  deriving DecidableEq, Repr

/-- `CTestboard::Daq_Read(std::vector<uint16_t> &data, uint32_t blocksize,
uint32_t &available, uint8_t channel)`. `data` and `available` are the values the caller's
variables hold on entry. -/
def Daq_Read (tb : CTestboard) (data : List Nat) (blocksize available channel : Nat) :
    ReadOutcome :=
  -- data.clear();
  let data : List Nat := data.take 0
  match tb.daq_status[channel]? with
  | none => ⟨.fault .out_of_range, data, available, tb⟩
  | some false => ⟨.ok 0, data, 0, tb⟩
  | some true =>
    match tb.daq_buffer[channel]? with
    | none => ⟨.fault .out_of_range, data, available, tb⟩
    | some q =>
      -- copy_end, as an offset from begin()
      let copy_end : Nat := if blocksize / 2 < q.length then blocksize / 2 else q.length
      -- data.insert(data.end(), begin, copy_end);
      let data := data ++ q.take copy_end
      -- daq_buffer.at(channel).erase(begin, copy_end);
      let tb1 := { tb with daq_buffer := tb.daq_buffer.set channel (q.drop copy_end) }
      ⟨.ok 0, data, available, tb1⟩

/-- `CTestboard::Daq_Read(std::vector<uint16_t> &data, uint32_t blocksize, uint8_t channel)`:
`uint32_t available = 0; return Daq_Read(data, blocksize, available, channel);`. -/
def Daq_Read3 (tb : CTestboard) (data : List Nat) (blocksize channel : Nat) : ReadOutcome :=
  let available : Nat := 0
  Daq_Read tb data blocksize available channel

/-- `CTestboard::Trigger_Select(uint16_t src)`:
`if((src & 0x00f0) != 0 || src == 0x0100) tbmtype = TBM_EMU;`. The parameter `TBM_EMU` is
the constant of that name from `constants.h`, which is not among the sources. -/
def Trigger_Select (TBM_EMU : Nat) (tb : CTestboard) (src : Nat) : Outcome CTestboard Unit :=
  if (src &&& 0x00f0) ≠ 0 ∨ src = 0x0100 then ⟨.ok (), { tb with tbmtype := TBM_EMU }⟩
  else ⟨.ok (), tb⟩

/-- `CTestboard::roc_I2cAddr(uint8_t i2c)`. -/
def roc_I2cAddr (tb : CTestboard) (i2c : Nat) : Outcome CTestboard Unit :=
  if tb.roci2c.contains i2c then ⟨.ok (), tb⟩
  else ⟨.ok (), { tb with roci2c := tb.roci2c ++ [i2c] }⟩

/-- One call `fillRawData(event, daq_buffer.at(ch), tbmtype, roc_per_ch, flag, col, row
[, flags])` on the buffer of channel `ch`. -/
def fillChannel (fillRawData : FillRawData) (event roc_per_ch : Nat) (flag : Bool)
    (col row : Nat) (flags : Option Nat) (ch : Nat) (tb : CTestboard) :
    Outcome CTestboard Unit :=
  match tb.daq_buffer[ch]? with
  | none => ⟨.fault .out_of_range, tb⟩
  | some q =>
    ⟨.ok (), { tb with daq_buffer :=
      tb.daq_buffer.set ch (fillRawData event q tb.tbmtype roc_per_ch flag col row flags) }⟩

/-- `CTestboard::Pg_Triggers(uint32_t nTriggers, uint16_t)`. -/
def Pg_Triggers (fillRawData : FillRawData) (tb : CTestboard) (nTriggers _period : Nat) :
    Outcome CTestboard Unit :=
  let channels : Nat := tb.daq_status.count true
  -- size_t roc_per_ch = roci2c.size()/channels;
  if channels = 0 then ⟨.fault .division_by_zero, tb⟩
  else
    let roc_per_ch : Nat := tb.roci2c.length / channels
    forLoop nTriggers (fun i tb =>
      forLoop channels (fun ch tb =>
        fillChannel fillRawData i roc_per_ch true 0 0 none ch tb) tb) tb

/-- The body of the trigger loop of `LoopMultiRocAllPixelsCalibrate`, on the test board
and the `uint32_t` counter `event`: the loop over the channels, then `event++`. -/
def calibrateTrigger (fillRawData : FillRawData) (channels roc_per_ch flags i j : Nat)
    (s : CTestboard × Nat) : Outcome (CTestboard × Nat) Unit :=
  match forLoop channels (fun ch tb =>
      fillChannel fillRawData s.2 roc_per_ch false i j (some flags) ch tb) s.1 with
  | ⟨.ok _, tb1⟩ => ⟨.ok (), (tb1, (s.2 + 1) % 2 ^ 32)⟩
  | ⟨.fault f, tb1⟩ => ⟨.fault f, (tb1, s.2)⟩

/-- `CTestboard::LoopMultiRocAllPixelsCalibrate(std::vector<uint8_t> &roci2cs,
uint16_t nTriggers, uint16_t flags)`. -/
def LoopMultiRocAllPixelsCalibrate (fillRawData : FillRawData) (tb : CTestboard)
    (roci2cs : List Nat) (nTriggers flags : Nat) : Outcome CTestboard Bool :=
  let channels : Nat := tb.daq_status.count true
  -- size_t roc_per_ch = roci2cs.size()/channels;
  if channels = 0 then ⟨.fault .division_by_zero, tb⟩
  else
    let roc_per_ch : Nat := roci2cs.length / channels
    let event : Nat := 0
    match forLoop ROC_NUMCOLS (fun i s =>
        forLoop ROC_NUMROWS (fun j s =>
          forLoop nTriggers (fun _k s =>
            calibrateTrigger fillRawData channels roc_per_ch flags i j s) s) s)
        (tb, event) with
    | ⟨.ok _, s⟩ => ⟨.ok true, s.1⟩
    | ⟨.fault f, s⟩ => ⟨.fault f, s.1⟩

/-- A finite sequence of `roc_I2cAddr` calls, one per address of the list, in order. -/
def roc_I2cAddr_all (tb : CTestboard) (addrs : List Nat) : CTestboard :=
  addrs.foldl (fun tb i2c => (roc_I2cAddr tb i2c).state) tb

/-- One call of `fillRawData` as the loops issue it: the channel whose buffer is passed
and the arguments other than the buffer and the TBM type. -/
structure FillCall where
  event : Nat
  channel : Nat
  roc_per_ch : Nat
  flag : Bool
  col : Nat
  row : Nat
  flags : Option Nat
  deriving DecidableEq, Repr

/-- Issuing a sequence of calls one after the other, each on the test board the previous
one left; a fault ends the sequence. -/
def runCalls (fillRawData : FillRawData) : List FillCall → CTestboard → Outcome CTestboard Unit
  | [], tb => ⟨.ok (), tb⟩
  | c :: cs, tb =>
    match fillChannel fillRawData c.event c.roc_per_ch c.flag c.col c.row c.flags c.channel tb with
    | ⟨.ok _, tb1⟩ => runCalls fillRawData cs tb1
    | ⟨.fault f, tb1⟩ => ⟨.fault f, tb1⟩

/-- Follows the spec's words: the calls of a trigger command with `n` triggers and `C`
active channels, trigger index outermost (event number `t`), channel innermost. -/
def triggerCalls (n C roc_per_ch : Nat) : List FillCall :=
  (List.range n).flatMap fun t =>
    (List.range C).map fun ch => ⟨t, ch, roc_per_ch, true, 0, 0, none⟩

/-- Follows the spec's words: the calls of the full calibration sweep, in lexicographic
order of (column, row, trigger, channel) over 52 columns and 80 rows, the call for
(column `i`, row `j`, trigger `k`) carrying event number `(i*80 + j)*n + k`. -/
def calibrateCalls (n C roc_per_ch flags : Nat) : List FillCall :=
  (List.range 52).flatMap fun i =>
    (List.range 80).flatMap fun j =>
      (List.range n).flatMap fun k =>
        (List.range C).map fun ch => ⟨(i * 80 + j) * n + k, ch, roc_per_ch, false, i, j, some flags⟩

end CTestboard

/-- A synthesis primitive for trying the emulator on concrete inputs: it appends the event
number as the only word of the event. -/
def appendEventNumber : FillRawData :=
  fun event buffer _ _ _ _ _ _ => buffer ++ [event]

/-- A capacity function for trying `Daq_Open` on concrete inputs: the vector reallocates
to exactly the requested size when that exceeds its length. -/
def exactCapacity (q : List Nat) (n : Nat) : Nat := max q.length n

/-- Follows the spec's words: the distinct addresses of a sequence, in order of first
occurrence. -/
def firstOccurrences : List Nat → List Nat
  | [] => []
  | a :: l => a :: (firstOccurrences l).filter (fun x => x != a)

/-! ## Evaluation on small inputs -/

example : pixel.ofRaw 0 = { roc_id := 0, column := 0, row := 80, value := 0 } := by decide
example : (pixel.ofAddress 0x3f00 5).column = 63 := by decide
example : (CTestboard.Daq_Read ⟨[[1, 2, 3]], [true], [], 0, 0⟩ [9] 5 7 0)
    = ⟨.ok 0, [1, 2], 7, ⟨[[3]], [true], [], 0, 0⟩⟩ := by decide
example : (CTestboard.Pg_Triggers appendEventNumber ⟨[[], []], [false, true], [], 0, 0⟩ 2 0)
    = ⟨.ok (), ⟨[[0, 1], []], [false, true], [], 0, 0⟩⟩ := by decide

/-! ## Helper lemmas -/

theorem copy_end_eq_min (a n : Nat) : (if a < n then a else n) = min a n := by
  split <;> omega

theorem getElem?_lt_length {α : Type} {l : List α} {i : Nat} {a : α} (h : l[i]? = some a) :
    i < l.length := by
  rcases Nat.lt_or_ge i l.length with hlt | hge
  · exact hlt
  · rw [List.getElem?_eq_none hge] at h
    cases h

/-- The bitwise and of a two's complement integer with a non-negative mask below `2^k`
only looks at the `k` low bits of the integer. -/
theorem land_natCast (a : Int) (M k : Nat) (hM : M < 2 ^ k) :
    Int.land a (M : Int) = (((a % 2 ^ k).toNat &&& M : Nat) : Int) := by
  have hMi : ∀ i, k ≤ i → M.testBit i = false := fun i hi =>
    Nat.testBit_lt_two_pow (lt_of_lt_of_le hM (Nat.pow_le_pow_right (by norm_num) hi))
  cases a with
  | ofNat m =>
    have h1 : ((Int.ofNat m) % 2 ^ k).toNat = m % 2 ^ k := by
      have h2 : (Int.ofNat m) % 2 ^ k = ((m % 2 ^ k : Nat) : Int) := by simp
      rw [h2]
      exact Int.toNat_natCast _
    rw [h1]
    show ((m &&& M : Nat) : Int) = _
    congr 1
    apply Nat.eq_of_testBit_eq
    intro i
    simp only [Nat.testBit_and, Nat.testBit_mod_two_pow]
    by_cases hi : i < k
    · simp [hi]
    · simp [hi, hMi i (by omega)]
  | negSucc m =>
    have hlt : m % 2 ^ k < 2 ^ k := Nat.mod_lt _ (by positivity)
    have h1 : (Int.negSucc m % 2 ^ k).toNat = 2 ^ k - (m % 2 ^ k + 1) := by
      rw [Int.negSucc_emod m (by positivity)]
      have e : ((2 : Int) ^ k - 1 - (m : Int) % 2 ^ k)
          = ((2 ^ k - (m % 2 ^ k + 1) : Nat) : Int) := by
        push_cast [Nat.cast_sub (by omega : m % 2 ^ k + 1 ≤ 2 ^ k)]
        ring
      rw [e]
      exact Int.toNat_natCast _
    rw [h1]
    show ((Nat.ldiff M m : Nat) : Int) = _
    congr 1
    apply Nat.eq_of_testBit_eq
    intro i
    rw [Nat.testBit_ldiff, Nat.testBit_and, Nat.testBit_two_pow_sub_succ hlt,
      Nat.testBit_mod_two_pow]
    by_cases hi : i < k
    · simp [hi, Bool.and_comm]
    · simp [hi, hMi i (by omega)]

theorem land_15 (a : Int) : Int.land a 15 = a % 16 := by
  have h1 := land_natCast a 15 4 (by norm_num)
  have h2 := Nat.and_pow_two_sub_one_eq_mod (a % 2 ^ 4).toNat 4
  norm_num at h1 h2
  rw [h1, h2]
  omega

theorem land_63 (a : Int) : Int.land a 63 = a % 64 := by
  have h1 := land_natCast a 63 6 (by norm_num)
  have h2 := Nat.and_pow_two_sub_one_eq_mod (a % 2 ^ 6).toNat 6
  norm_num at h1 h2
  rw [h1, h2]
  omega

theorem land_127 (a : Int) : Int.land a 127 = a % 128 := by
  have h1 := land_natCast a 127 7 (by norm_num)
  have h2 := Nat.and_pow_two_sub_one_eq_mod (a % 2 ^ 7).toNat 7
  norm_num at h1 h2
  rw [h1, h2]
  omega

/-- The three fields of `decode` as quotients and remainders. -/
theorem decode_fields (p : pixel) (address : Int) :
    (p.decode address).roc_id = (address / 65536 % 16).toNat ∧
    (p.decode address).column = (address / 256 % 64).toNat ∧
    (p.decode address).row = (address % 128).toNat ∧
    (p.decode address).value = p.value := by
  simp only [pixel.decode, toUInt8, land_15, land_63, land_127, Int.shiftRight_eq_div_pow]
  norm_num
  refine ⟨?_, ?_, ?_⟩ <;> omega

/-- Shifting the masked fields back to their places gives the masked word. -/
theorem nat_reencode (u : Nat) :
    (((u >>> 16) &&& 15) <<< 16) ||| (((u >>> 8) &&& 63) <<< 8) ||| (u &&& 127)
      = u &&& 0x000F3F7F := by
  have hc : (0x000F3F7F : Nat)
      = ((2 ^ 4 - 1) <<< 16) ||| ((2 ^ 6 - 1) <<< 8) ||| (2 ^ 7 - 1) := by decide
  have h15 : (15 : Nat) = 2 ^ 4 - 1 := by decide
  have h63 : (63 : Nat) = 2 ^ 6 - 1 := by decide
  have h127 : (127 : Nat) = 2 ^ 7 - 1 := by decide
  rw [hc, h15, h63, h127]
  apply Nat.eq_of_testBit_eq
  intro i
  simp only [Nat.testBit_or, Nat.testBit_and, Nat.testBit_shiftLeft, Nat.testBit_shiftRight,
    Nat.testBit_two_pow_sub_one]
  by_cases h16 : 16 ≤ i
  · have e : 16 + (i - 16) = i := by omega
    have e8 : 8 + (i - 8) = i := by omega
    have h7 : ¬ i < 7 := by omega
    have h6 : ¬ i - 8 < 6 := by omega
    rw [e, e8]
    cases u.testBit i <;> simp [h16, h7, h6]
  · by_cases h8 : 8 ≤ i
    · have e8 : 8 + (i - 8) = i := by omega
      have h7 : ¬ i < 7 := by omega
      rw [e8]
      cases u.testBit i <;> simp [h16, h8, h7]
    · cases u.testBit i <;> simp [h16, h8]

theorem and_7_le (x : Nat) : x &&& 7 ≤ 7 := Nat.and_le_right

theorem and_1_le (x : Nat) : x &&& 1 ≤ 1 := Nat.and_le_right

theorem rawColGroup_le (raw : Nat) : rawColGroup raw ≤ 49 := by
  have h1 := and_7_le (raw >>> 21)
  have h2 := and_7_le (raw >>> 18)
  simp only [rawColGroup]
  omega

theorem rawRowGroup_le (raw : Nat) : rawRowGroup raw ≤ 301 := by
  have h1 := and_7_le (raw >>> 15)
  have h2 := and_7_le (raw >>> 12)
  have h3 := and_7_le (raw >>> 9)
  simp only [rawRowGroup]
  omega

/-- The members `decodeRaw` assigns, in terms of the two accumulators. -/
theorem decodeRaw_fields (p : pixel) (raw : Nat) :
    (p.decodeRaw raw).value = (((raw &&& 0xF) + ((raw >>> 1) &&& 0xF0) : Nat) : Int) ∧
    (p.decodeRaw raw).row = toUInt8 (80 - ((rawRowGroup raw / 2 : Nat) : Int)) ∧
    (p.decodeRaw raw).column = 2 * rawColGroup raw + (rawRowGroup raw &&& 1) ∧
    (p.decodeRaw raw).roc_id = p.roc_id := by
  refine ⟨rfl, rfl, ?_, rfl⟩
  have hc := rawColGroup_le raw
  have h1 := and_1_le (rawRowGroup raw)
  show toUInt8 (((2 * rawColGroup raw + (rawRowGroup raw &&& 1) : Nat) : Int)) = _
  simp only [toUInt8]
  omega

/-- With the fields within their widths, the re-encoded word is a sum. -/
theorem encode_eq_sum (a b c : Nat) (hb : b < 64) (hc : c < 128) :
    (a <<< 16) ||| (b <<< 8) ||| c = a * 65536 + b * 256 + c := by
  have h1 : (b <<< 8) ||| c = 2 ^ 8 * b + c := by
    rw [Nat.shiftLeft_eq, Nat.mul_comm b]
    exact (Nat.mul_add_lt_is_or (by omega) b).symm
  have h2 : (a <<< 16) ||| (2 ^ 8 * b + c) = 2 ^ 16 * a + (2 ^ 8 * b + c) := by
    rw [Nat.shiftLeft_eq, Nat.mul_comm a]
    exact (Nat.mul_add_lt_is_or (by omega) a).symm
  rw [Nat.lor_assoc, h1, h2]
  omega

/-! ### The chip-address set -/

theorem firstOccurrences_mem (l : List Nat) (a : Nat) : a ∈ firstOccurrences l ↔ a ∈ l := by
  induction l with
  | nil => simp [firstOccurrences]
  | cons b l ih =>
    simp only [firstOccurrences, List.mem_cons, List.mem_filter, ih]
    by_cases h : a = b
    · simp [h]
    · simp [h]

theorem firstOccurrences_nodup (l : List Nat) : (firstOccurrences l).Nodup := by
  induction l with
  | nil => simp [firstOccurrences]
  | cons b l ih =>
    simp only [firstOccurrences, List.nodup_cons]
    exact ⟨by simp [List.mem_filter], ih.filter _⟩

theorem roc_I2cAddr_roci2c (tb : CTestboard) (i2c : Nat) :
    (CTestboard.roc_I2cAddr tb i2c).state.roci2c
      = if i2c ∈ tb.roci2c then tb.roci2c else tb.roci2c ++ [i2c] := by
  unfold CTestboard.roc_I2cAddr
  by_cases h : i2c ∈ tb.roci2c
  · simp [h]
  · simp [h]

/-- The chip-address set after a sequence of calls: what it held before, followed by the
first occurrences of the addresses that it did not hold. -/
theorem roc_I2cAddr_all_roci2c (addrs : List Nat) : ∀ tb : CTestboard,
    (CTestboard.roc_I2cAddr_all tb addrs).roci2c
      = tb.roci2c ++ (firstOccurrences addrs).filter (fun x => decide (x ∉ tb.roci2c)) := by
  induction addrs with
  | nil => intro tb; simp [CTestboard.roc_I2cAddr_all, firstOccurrences]
  | cons a l ih =>
    intro tb
    have hstep : CTestboard.roc_I2cAddr_all tb (a :: l)
        = CTestboard.roc_I2cAddr_all (CTestboard.roc_I2cAddr tb a).state l := rfl
    rw [hstep, ih, roc_I2cAddr_roci2c]
    by_cases h : a ∈ tb.roci2c
    · simp only [h, if_true, firstOccurrences, List.filter_cons, not_true_eq_false,
        decide_False, Bool.false_eq_true, if_false, List.filter_filter]
      congr 1
      apply List.filter_congr
      intro x _
      by_cases hx : x ∈ tb.roci2c
      · simp [hx]
      · have : x ≠ a := fun e => hx (e ▸ h)
        simp [hx, this]
    · simp only [h, if_false, firstOccurrences, List.filter_cons, not_false_eq_true,
        decide_True, if_true, List.filter_filter, List.append_assoc, List.singleton_append]
      congr 2
      apply List.filter_congr
      intro x _
      by_cases hx : x ∈ tb.roci2c
      · simp [hx]
      · by_cases hxa : x = a
        · simp [hxa]
        · simp [hx, hxa]

/-! ### Loops and call sequences -/

theorem length_flatMap_range {α : Type} (f : Nat → List α) (L : Nat)
    (hL : ∀ x, (f x).length = L) (m : Nat) : ((List.range m).flatMap f).length = m * L := by
  induction m with
  | zero => simp
  | succ m ih =>
    rw [List.range_succ, List.flatMap_append, List.length_append, ih]
    simp [hL, Nat.succ_mul]

/-- In a concatenation of `m` blocks of the same length `L`, position `x * L + y` holds
element `y` of block `x`. -/
theorem getElem?_flatMap_range {α : Type} (f : Nat → List α) (L : Nat)
    (hL : ∀ x, (f x).length = L) (m x y : Nat) (hx : x < m) (hy : y < L) :
    ((List.range m).flatMap f)[x * L + y]? = (f x)[y]? := by
  induction m with
  | zero => omega
  | succ m ih =>
    have hlen := length_flatMap_range f L hL m
    rw [List.range_succ, List.flatMap_append]
    rcases Nat.lt_or_ge x m with hlt | hge
    · have hle : (x + 1) * L ≤ m * L := Nat.mul_le_mul_right L hlt
      have hsm : (x + 1) * L = x * L + L := Nat.succ_mul x L
      rw [List.getElem?_append_left (by rw [hlen]; omega)]
      exact ih hlt
    · have hxm : x = m := by omega
      subst hxm
      rw [List.getElem?_append_right (by rw [hlen]; omega), hlen]
      simp

theorem runCalls_append (fillRawData : FillRawData) (a b : List CTestboard.FillCall) :
    ∀ tb : CTestboard, CTestboard.runCalls fillRawData (a ++ b) tb
      = match CTestboard.runCalls fillRawData a tb with
        | ⟨.ok _, tb1⟩ => CTestboard.runCalls fillRawData b tb1
        | ⟨.fault f, tb1⟩ => ⟨.fault f, tb1⟩ := by
  induction a with
  | nil => intro tb; simp [CTestboard.runCalls]
  | cons c cs ih =>
    intro tb
    simp only [List.cons_append, CTestboard.runCalls]
    rcases h : CTestboard.fillChannel fillRawData c.event c.roc_per_ch c.flag c.col c.row
      c.flags c.channel tb with ⟨r, tb1⟩
    cases r with
    | ok u => exact ih tb1
    | fault f => rfl

theorem runCalls_singleton (fillRawData : FillRawData) (c : CTestboard.FillCall)
    (tb : CTestboard) :
    CTestboard.runCalls fillRawData [c] tb
      = CTestboard.fillChannel fillRawData c.event c.roc_per_ch c.flag c.col c.row c.flags
          c.channel tb := by
  simp only [CTestboard.runCalls]
  rcases h : CTestboard.fillChannel fillRawData c.event c.roc_per_ch c.flag c.col c.row
    c.flags c.channel tb with ⟨r, tb1⟩
  cases r with
  | ok u => cases u; rfl
  | fault f => rfl

/-- A loop whose body issues the calls `calls i` issues the concatenation of these
sequences. -/
theorem forLoopFrom_eq_runCalls (fillRawData : FillRawData)
    (body : Nat → CTestboard → Outcome CTestboard Unit) (calls : Nat → List CTestboard.FillCall)
    (hbody : ∀ i tb, body i tb = CTestboard.runCalls fillRawData (calls i) tb) :
    ∀ (m i0 : Nat) (tb : CTestboard), forLoopFrom body m i0 tb
      = CTestboard.runCalls fillRawData
          ((List.range m).flatMap fun t => calls (i0 + t)) tb := by
  intro m
  induction m with
  | zero => intro i0 tb; simp [forLoopFrom, CTestboard.runCalls]
  | succ m ih =>
    intro i0 tb
    have hshift : (fun t => calls (i0 + (t + 1))) = fun t => calls (i0 + 1 + t) := by
      funext t
      congr 1
      omega
    rw [List.range_succ_eq_map, List.flatMap_cons, List.flatMap_map, runCalls_append]
    simp only [forLoopFrom, hbody, Nat.add_zero, Nat.succ_eq_add_one, hshift]
    rcases h : CTestboard.runCalls fillRawData (calls i0) tb with ⟨r, tb1⟩
    cases r with
    | ok u => exact ih (i0 + 1) tb1
    | fault f => rfl

/-- The loop over the channels issues one call per channel index. -/
theorem channelLoop_eq_runCalls (fillRawData : FillRawData) (event roc_per_ch : Nat)
    (flag : Bool) (col row : Nat) (flags : Option Nat) (C : Nat) (tb : CTestboard) :
    forLoop C (fun ch tb =>
        CTestboard.fillChannel fillRawData event roc_per_ch flag col row flags ch tb) tb
      = CTestboard.runCalls fillRawData
          ((List.range C).map fun ch => ⟨event, ch, roc_per_ch, flag, col, row, flags⟩) tb := by
  have h := forLoopFrom_eq_runCalls fillRawData
    (fun ch tb => CTestboard.fillChannel fillRawData event roc_per_ch flag col row flags ch tb)
    (fun ch => [⟨event, ch, roc_per_ch, flag, col, row, flags⟩])
    (fun i tb => (runCalls_singleton fillRawData
      ⟨event, i, roc_per_ch, flag, col, row, flags⟩ tb).symm) C 0 tb
  rw [forLoop, h]
  congr 1
  simp only [Nat.zero_add]
  induction (List.range C) with
  | nil => rfl
  | cons x xs ih => simp [List.flatMap_cons, ih]

theorem fillChannel_of_lt (fillRawData : FillRawData) (event roc_per_ch : Nat) (flag : Bool)
    (col row : Nat) (flags : Option Nat) (ch : Nat) (tb : CTestboard)
    (h : ch < tb.daq_buffer.length) :
    CTestboard.fillChannel fillRawData event roc_per_ch flag col row flags ch tb
      = ⟨.ok (), { tb with daq_buffer := (tb.daq_buffer.set ch
          (fillRawData event (tb.daq_buffer[ch]) tb.tbmtype roc_per_ch flag col row flags)) }⟩ := by
  simp [CTestboard.fillChannel, List.getElem?_eq_getElem h]

/-- A sequence of calls on channels that all have a queue runs to its end and changes
nothing but the contents of queues. -/
theorem runCalls_ok (fillRawData : FillRawData) (calls : List CTestboard.FillCall) :
    ∀ tb : CTestboard, (∀ c ∈ calls, c.channel < tb.daq_buffer.length) →
      (CTestboard.runCalls fillRawData calls tb).result = .ok () ∧
      (CTestboard.runCalls fillRawData calls tb).state.daq_buffer.length
        = tb.daq_buffer.length ∧
      (CTestboard.runCalls fillRawData calls tb).state.daq_status = tb.daq_status ∧
      (CTestboard.runCalls fillRawData calls tb).state.roci2c = tb.roci2c ∧
      (CTestboard.runCalls fillRawData calls tb).state.tbmtype = tb.tbmtype := by
  induction calls with
  | nil => intro tb _; simp [CTestboard.runCalls]
  | cons c cs ih =>
    intro tb h
    have hc : c.channel < tb.daq_buffer.length := h c (List.mem_cons_self _ _)
    simp only [CTestboard.runCalls, fillChannel_of_lt _ _ _ _ _ _ _ _ _ hc]
    have h2 := ih { tb with daq_buffer := (tb.daq_buffer.set c.channel
      (fillRawData c.event (tb.daq_buffer[c.channel]) tb.tbmtype c.roc_per_ch c.flag c.col c.row
        c.flags)) } (by
        intro d hd
        simp only [List.length_set]
        exact h d (List.mem_cons_of_mem _ hd))
    simpa using h2

/-- With a primitive that appends `L` words per call, a sequence of calls that are all on
channel `ch` lengthens the queue of that channel by `L` words per call. -/
theorem runCalls_channel_length (fillRawData : FillRawData) (L ch : Nat)
    (hfill : ∀ event q tbmtype roc_per_ch flag col row flags,
      (fillRawData event q tbmtype roc_per_ch flag col row flags).length = q.length + L)
    (calls : List CTestboard.FillCall) :
    ∀ (tb : CTestboard) (q : List Nat), (∀ c ∈ calls, c.channel = ch) →
      tb.daq_buffer[ch]? = some q →
      ∃ q1, (CTestboard.runCalls fillRawData calls tb).state.daq_buffer[ch]? = some q1 ∧
        q1.length = q.length + calls.length * L := by
  induction calls with
  | nil => intro tb q _ hq; exact ⟨q, by simpa [CTestboard.runCalls] using hq, by simp⟩
  | cons c cs ih =>
    intro tb q h hq
    have hch : c.channel = ch := h c (List.mem_cons_self _ _)
    have hlt : ch < tb.daq_buffer.length := getElem?_lt_length hq
    have hget : tb.daq_buffer[ch] = q := by
      have := List.getElem?_eq_getElem hlt
      rw [hq] at this
      exact (Option.some.inj this).symm
    simp only [CTestboard.runCalls, hch, fillChannel_of_lt _ _ _ _ _ _ _ _ _ hlt, hget]
    obtain ⟨q1, h1, h2⟩ := ih { tb with daq_buffer := (tb.daq_buffer.set ch
      (fillRawData c.event q tb.tbmtype c.roc_per_ch c.flag c.col c.row c.flags)) }
      (fillRawData c.event q tb.tbmtype c.roc_per_ch c.flag c.col c.row c.flags)
      (fun d hd => h d (List.mem_cons_of_mem _ hd)) (by simp [hlt])
    refine ⟨q1, h1, ?_⟩
    rw [h2, hfill, List.length_cons, Nat.succ_mul]
    omega

theorem triggerCalls_channel_lt (n C roc_per_ch : Nat) :
    ∀ c ∈ CTestboard.triggerCalls n C roc_per_ch, c.channel < C := by
  intro c hc
  simp only [CTestboard.triggerCalls, List.mem_flatMap, List.mem_map, List.mem_range] at hc
  obtain ⟨t, _, ch, hch, rfl⟩ := hc
  exact hch

theorem Pg_Triggers_eq_runCalls (fillRawData : FillRawData) (tb : CTestboard)
    (nTriggers period : Nat) (hC : tb.daq_status.count true ≠ 0) :
    CTestboard.Pg_Triggers fillRawData tb nTriggers period
      = CTestboard.runCalls fillRawData
          (CTestboard.triggerCalls nTriggers (tb.daq_status.count true)
            (tb.roci2c.length / tb.daq_status.count true)) tb := by
  have h := forLoopFrom_eq_runCalls fillRawData
    (fun i tb1 => forLoop (tb.daq_status.count true) (fun ch tb2 =>
      CTestboard.fillChannel fillRawData i (tb.roci2c.length / tb.daq_status.count true)
        true 0 0 none ch tb2) tb1)
    (fun i => (List.range (tb.daq_status.count true)).map fun ch =>
      ⟨i, ch, tb.roci2c.length / tb.daq_status.count true, true, 0, 0, none⟩)
    (fun i tb1 => channelLoop_eq_runCalls fillRawData i _ true 0 0 none _ tb1) nTriggers 0 tb
  simp only [Nat.zero_add] at h
  simp only [CTestboard.Pg_Triggers, hC, if_false, forLoop, CTestboard.triggerCalls]
  exact h

/-- A loop over the test board and the event counter whose body issues the calls
`calls i e` and advances the counter by `d` issues the concatenation of these sequences
and advances the counter by `d` per iteration, as long as the counter stays within
`bound`. -/
theorem forLoopFrom_tracks (fillRawData : FillRawData)
    (body : Nat → CTestboard × Nat → Outcome (CTestboard × Nat) Unit)
    (calls : Nat → Nat → List CTestboard.FillCall) (d bound : Nat)
    (hbody : ∀ i tb e, e + d ≤ bound →
      (body i (tb, e)).result = (CTestboard.runCalls fillRawData (calls i e) tb).result ∧
      (body i (tb, e)).state.1 = (CTestboard.runCalls fillRawData (calls i e) tb).state ∧
      ((body i (tb, e)).result = .ok () → (body i (tb, e)).state.2 = e + d)) :
    ∀ (m i0 : Nat) (tb : CTestboard) (e : Nat), e + m * d ≤ bound →
      (forLoopFrom body m i0 (tb, e)).result
        = (CTestboard.runCalls fillRawData
            ((List.range m).flatMap fun t => calls (i0 + t) (e + t * d)) tb).result ∧
      (forLoopFrom body m i0 (tb, e)).state.1
        = (CTestboard.runCalls fillRawData
            ((List.range m).flatMap fun t => calls (i0 + t) (e + t * d)) tb).state ∧
      ((forLoopFrom body m i0 (tb, e)).result = .ok () →
        (forLoopFrom body m i0 (tb, e)).state.2 = e + m * d) := by
  intro m
  induction m with
  | zero => intro i0 tb e _; simp [forLoopFrom, CTestboard.runCalls]
  | succ m ih =>
    intro i0 tb e hb
    have hsm : (m + 1) * d = m * d + d := Nat.succ_mul m d
    have hshift : (fun t => calls (i0 + (t + 1)) (e + (t + 1) * d))
        = fun t => calls (i0 + 1 + t) (e + d + t * d) := by
      funext t
      have h1 : i0 + (t + 1) = i0 + 1 + t := by omega
      have h2 : e + (t + 1) * d = e + d + t * d := by rw [Nat.succ_mul]; omega
      rw [h1, h2]
    obtain ⟨h1, h2, h3⟩ := hbody i0 tb e (by omega)
    rw [List.range_succ_eq_map, List.flatMap_cons, List.flatMap_map, runCalls_append]
    simp only [forLoopFrom, Nat.add_zero, Nat.zero_mul, Nat.succ_eq_add_one, hshift]
    rcases hB : body i0 (tb, e) with ⟨r, tb1, e1⟩
    rcases hR : CTestboard.runCalls fillRawData (calls i0 e) tb with ⟨r1, tb2⟩
    rw [hB, hR] at h1 h2
    rw [hB] at h3
    simp only at h1 h2 h3
    subst h1 h2
    cases r with
    | ok u =>
      have he : e1 = e + d := h3 rfl
      subst he
      have ih1 := ih (i0 + 1) tb1 (e + d) (by omega)
      refine ⟨ih1.1, ih1.2.1, fun hok => ?_⟩
      rw [ih1.2.2 hok]
      omega
    | fault f => exact ⟨rfl, rfl, fun hok => by cases hok⟩

/-- The body of the trigger loop issues one call per channel index, all with the current
event number, and advances the event number by one. -/
theorem calibrateTrigger_tracks (fillRawData : FillRawData) (C roc_per_ch flags i j : Nat)
    (tb : CTestboard) (e : Nat) (hb : e + 1 ≤ 2 ^ 32 - 1) :
    (CTestboard.calibrateTrigger fillRawData C roc_per_ch flags i j (tb, e)).result
      = (CTestboard.runCalls fillRawData ((List.range C).map fun ch =>
          ⟨e, ch, roc_per_ch, false, i, j, some flags⟩) tb).result ∧
    (CTestboard.calibrateTrigger fillRawData C roc_per_ch flags i j (tb, e)).state.1
      = (CTestboard.runCalls fillRawData ((List.range C).map fun ch =>
          ⟨e, ch, roc_per_ch, false, i, j, some flags⟩) tb).state ∧
    ((CTestboard.calibrateTrigger fillRawData C roc_per_ch flags i j (tb, e)).result = .ok () →
      (CTestboard.calibrateTrigger fillRawData C roc_per_ch flags i j (tb, e)).state.2
        = e + 1) := by
  simp only [CTestboard.calibrateTrigger, channelLoop_eq_runCalls]
  rcases hR : CTestboard.runCalls fillRawData ((List.range C).map fun ch =>
      (⟨e, ch, roc_per_ch, false, i, j, some flags⟩ : CTestboard.FillCall)) tb with ⟨r, tb1⟩
  cases r with
  | ok u =>
    cases u
    refine ⟨rfl, rfl, fun _ => ?_⟩
    exact Nat.mod_eq_of_lt (by omega)
  | fault f => exact ⟨rfl, rfl, fun hok => by cases hok⟩

theorem block_index_lt (x m y L : Nat) (hx : x < m) (hy : y < L) : x * L + y < m * L := by
  have h : (x + 1) * L ≤ m * L := Nat.mul_le_mul_right L hx
  rw [Nat.succ_mul] at h
  omega

theorem calibrateCalls_channel_lt (n C roc_per_ch flags : Nat) :
    ∀ c ∈ CTestboard.calibrateCalls n C roc_per_ch flags, c.channel < C := by
  intro c hc
  simp only [CTestboard.calibrateCalls, List.mem_flatMap, List.mem_map, List.mem_range] at hc
  obtain ⟨i, _, j, _, k, _, ch, hch, rfl⟩ := hc
  exact hch

theorem calibrateCalls_length (n C roc_per_ch flags : Nat) :
    (CTestboard.calibrateCalls n C roc_per_ch flags).length = 52 * 80 * n * C := by
  have h3 : ∀ i j k : Nat, ((List.range C).map fun ch =>
      (⟨(i * 80 + j) * n + k, ch, roc_per_ch, false, i, j, some flags⟩ :
        CTestboard.FillCall)).length = C := by
    intro i j k
    simp
  have h2 : ∀ i j : Nat, ((List.range n).flatMap fun k => (List.range C).map fun ch =>
      (⟨(i * 80 + j) * n + k, ch, roc_per_ch, false, i, j, some flags⟩ :
        CTestboard.FillCall)).length = n * C :=
    fun i j => length_flatMap_range _ _ (h3 i j) n
  have h1 : ∀ i : Nat, ((List.range 80).flatMap fun j => (List.range n).flatMap fun k =>
      (List.range C).map fun ch =>
      (⟨(i * 80 + j) * n + k, ch, roc_per_ch, false, i, j, some flags⟩ :
        CTestboard.FillCall)).length = 80 * (n * C) :=
    fun i => length_flatMap_range _ _ (h2 i) 80
  have h0 := length_flatMap_range _ _ h1 52
  rw [CTestboard.calibrateCalls, h0]
  ring

/-- The call at lexicographic rank `((i*80 + j)*n + k)*C + ch` of the sweep. -/
theorem calibrateCalls_getElem? (n C roc_per_ch flags i j k ch : Nat)
    (hi : i < 52) (hj : j < 80) (hk : k < n) (hch : ch < C) :
    (CTestboard.calibrateCalls n C roc_per_ch flags)[((i * 80 + j) * n + k) * C + ch]?
      = some ⟨(i * 80 + j) * n + k, ch, roc_per_ch, false, i, j, some flags⟩ := by
  have h3 : ∀ i j k : Nat, ((List.range C).map fun ch =>
      (⟨(i * 80 + j) * n + k, ch, roc_per_ch, false, i, j, some flags⟩ :
        CTestboard.FillCall)).length = C := by
    intro i j k
    simp
  have h2 : ∀ i j : Nat, ((List.range n).flatMap fun k => (List.range C).map fun ch =>
      (⟨(i * 80 + j) * n + k, ch, roc_per_ch, false, i, j, some flags⟩ :
        CTestboard.FillCall)).length = n * C :=
    fun i j => length_flatMap_range _ _ (h3 i j) n
  have h1 : ∀ i : Nat, ((List.range 80).flatMap fun j => (List.range n).flatMap fun k =>
      (List.range C).map fun ch =>
      (⟨(i * 80 + j) * n + k, ch, roc_per_ch, false, i, j, some flags⟩ :
        CTestboard.FillCall)).length = 80 * (n * C) :=
    fun i => length_flatMap_range _ _ (h2 i) 80
  have hidx : ((i * 80 + j) * n + k) * C + ch
      = i * (80 * (n * C)) + (j * (n * C) + (k * C + ch)) := by ring
  have hkc : k * C + ch < n * C := block_index_lt k n ch C hk hch
  have hjc : j * (n * C) + (k * C + ch) < 80 * (n * C) :=
    block_index_lt j 80 _ (n * C) hj hkc
  rw [hidx, CTestboard.calibrateCalls, getElem?_flatMap_range _ _ h1 52 i _ hi hjc,
    getElem?_flatMap_range _ _ (h2 i) 80 j _ hj hkc,
    getElem?_flatMap_range _ _ (h3 i j) n k ch hk hch]
  simp [List.getElem?_range hch]

/-- The three outer loops of the calibration sweep, started with event number 0, issue
the calls of `calibrateCalls` one after the other. -/
theorem calibrateSweep_tracks (fillRawData : FillRawData) (C roc_per_ch flags n : Nat)
    (tb : CTestboard) (hn : n < 65536) :
    (forLoop 52 (fun i s => forLoop 80 (fun j s => forLoop n (fun _k s =>
        CTestboard.calibrateTrigger fillRawData C roc_per_ch flags i j s) s) s) (tb, 0)).result
      = (CTestboard.runCalls fillRawData
          (CTestboard.calibrateCalls n C roc_per_ch flags) tb).result ∧
    (forLoop 52 (fun i s => forLoop 80 (fun j s => forLoop n (fun _k s =>
        CTestboard.calibrateTrigger fillRawData C roc_per_ch flags i j s) s) s) (tb, 0)).state.1
      = (CTestboard.runCalls fillRawData
          (CTestboard.calibrateCalls n C roc_per_ch flags) tb).state := by
  have hk := fun i j : Nat => forLoopFrom_tracks fillRawData
    (fun _k s => CTestboard.calibrateTrigger fillRawData C roc_per_ch flags i j s)
    (fun _k e => (List.range C).map fun ch => ⟨e, ch, roc_per_ch, false, i, j, some flags⟩)
    1 (2 ^ 32 - 1)
    (fun _k tb e hb => calibrateTrigger_tracks fillRawData C roc_per_ch flags i j tb e hb)
  have hj := fun i : Nat => forLoopFrom_tracks fillRawData
    (fun j s => forLoop n (fun _k s =>
      CTestboard.calibrateTrigger fillRawData C roc_per_ch flags i j s) s)
    (fun j e => (List.range n).flatMap fun t => (List.range C).map fun ch =>
      ⟨e + t * 1, ch, roc_per_ch, false, i, j, some flags⟩)
    (n * 1) (2 ^ 32 - 1)
    (fun j tb e hb => hk i j n 0 tb e hb)
  have hi := forLoopFrom_tracks fillRawData
    (fun i s => forLoop 80 (fun j s => forLoop n (fun _k s =>
      CTestboard.calibrateTrigger fillRawData C roc_per_ch flags i j s) s) s)
    (fun i e => (List.range 80).flatMap fun j => (List.range n).flatMap fun t =>
      (List.range C).map fun ch =>
      ⟨e + j * (n * 1) + t * 1, ch, roc_per_ch, false, i, 0 + j, some flags⟩)
    (80 * (n * 1)) (2 ^ 32 - 1)
    (fun i tb e hb => hj i 80 0 tb e hb)
  have htop := hi 52 0 tb 0 (by omega)
  have harith : ∀ i j k : Nat, i * (80 * n) + j * n + k = (i * 80 + j) * n + k := by
    intro i j k
    ring
  simp only [Nat.zero_add, Nat.mul_one, harith] at htop
  exact ⟨htop.1, htop.2.1⟩

/-! ## Pixel address codec -/

/-- C7: `decodeRaw` stores `value = (raw & 0xF) + ((raw >> 1) & 0xF0)`, and with
`c = ((raw>>21)&7)*6 + ((raw>>18)&7)` and
`r = (((raw>>15)&7)*6 + ((raw>>12)&7))*6 + ((raw>>9)&7)` it stores `80 - r/2`, converted
to the unsigned 8-bit member (that is, modulo 256), as `row` and `2*c + (r & 1)` as
`column`; `roc_id` is left as it was; the three stored members are the same whatever
pixel the function is called on; and `raw = 0` gives value 0, row 80, column 0. -/
theorem decodeRaw_spec (p : pixel) (raw : Nat) :
    (p.decodeRaw raw).value = (((raw &&& 0xF) + ((raw >>> 1) &&& 0xF0) : Nat) : Int) ∧
    ((p.decodeRaw raw).row : Int) = (80 - ((rawRowGroup raw / 2 : Nat) : Int)) % 256 ∧
    (p.decodeRaw raw).column = 2 * rawColGroup raw + (rawRowGroup raw &&& 1) ∧
    (p.decodeRaw raw).roc_id = p.roc_id ∧
    (∀ q : pixel, (q.decodeRaw raw).value = (p.decodeRaw raw).value ∧
      (q.decodeRaw raw).row = (p.decodeRaw raw).row ∧
      (q.decodeRaw raw).column = (p.decodeRaw raw).column) ∧
    (p.decodeRaw 0).value = 0 ∧ (p.decodeRaw 0).row = 80 ∧ (p.decodeRaw 0).column = 0 := by
  obtain ⟨hv, hr, hc, hid⟩ := decodeRaw_fields p raw
  refine ⟨hv, ?_, hc, hid, ?_, ?_, ?_, ?_⟩
  · rw [hr, toUInt8]
    exact Int.toNat_of_nonneg (Int.emod_nonneg _ (by norm_num))
  · intro q
    obtain ⟨hv2, hr2, hc2, _⟩ := decodeRaw_fields q raw
    exact ⟨hv2.trans hv.symm, hr2.trans hr.symm, hc2.trans hc.symm⟩
  · simp [pixel.decodeRaw]
  · simp [pixel.decodeRaw, toUInt8]
  · simp [pixel.decodeRaw, toUInt8]

/-- C8: for every address, the fields `decode` extracts, put back at the bit positions
they were read from, give the masked bits of the address,
`(roc_id << 16) | (column << 8) | row = address & 0x000F3F7F`, and `decode` of that word
yields the same `roc_id`, `column` and `row` again. -/
theorem decode_reencode (p q : pixel) (address : Int) :
    (((p.decode address).encode : Nat) : Int) = Int.land address 0x000F3F7F ∧
    (q.decode (((p.decode address).encode : Nat) : Int)).roc_id = (p.decode address).roc_id ∧
    (q.decode (((p.decode address).encode : Nat) : Int)).column = (p.decode address).column ∧
    (q.decode (((p.decode address).encode : Nat) : Int)).row = (p.decode address).row := by
  obtain ⟨hr, hc, hw, _⟩ := decode_fields p address
  have hmask : Int.land address 0x000F3F7F
      = (((address % 1048576).toNat &&& 0x000F3F7F : Nat) : Int) := by
    have h := land_natCast address 0x000F3F7F 20 (by norm_num)
    norm_num at h
    exact h
  have hR : (p.decode address).roc_id = ((address % 1048576).toNat >>> 16) &&& 15 := by
    have h := Nat.and_pow_two_sub_one_eq_mod ((address % 1048576).toNat >>> 16) 4
    norm_num at h
    rw [hr, h, Nat.shiftRight_eq_div_pow]
    omega
  have hC : (p.decode address).column = ((address % 1048576).toNat >>> 8) &&& 63 := by
    have h := Nat.and_pow_two_sub_one_eq_mod ((address % 1048576).toNat >>> 8) 6
    norm_num at h
    rw [hc, h, Nat.shiftRight_eq_div_pow]
    omega
  have hW : (p.decode address).row = (address % 1048576).toNat &&& 127 := by
    have h := Nat.and_pow_two_sub_one_eq_mod (address % 1048576).toNat 7
    norm_num at h
    rw [hw, h]
    omega
  have hsum : (p.decode address).encode = (p.decode address).roc_id * 65536
      + (p.decode address).column * 256 + (p.decode address).row := by
    rw [pixel.encode]
    apply encode_eq_sum
    · rw [hc]; omega
    · rw [hw]; omega
  obtain ⟨hr2, hc2, hw2, _⟩ := decode_fields q (((p.decode address).encode : Nat) : Int)
  refine ⟨?_, ?_, ?_, ?_⟩
  · have hnat : (p.decode address).encode = (address % 1048576).toNat &&& 0x000F3F7F := by
      rw [pixel.encode, hR, hC, hW]
      exact nat_reencode _
    rw [hnat]
    exact hmask.symm
  · rw [hr2, hsum]
    have : (p.decode address).column < 64 := by rw [hc]; omega
    have : (p.decode address).row < 128 := by rw [hw]; omega
    have : (p.decode address).roc_id < 16 := by rw [hr]; omega
    omega
  · rw [hc2, hsum]
    have : (p.decode address).column < 64 := by rw [hc]; omega
    have : (p.decode address).row < 128 := by rw [hw]; omega
    omega
  · rw [hw2, hsum]
    have : (p.decode address).row < 128 := by rw [hw]; omega
    omega

/-- C9, as stated, fails: `decodeRaw(0)` gives row 80, and `decode(0x3F7F)` gives
column 63 and row 127. -/
theorem decoded_pixel_out_of_range :
    ¬ ((pixel.ofRaw 0).row < 80) ∧
    ¬ ((pixel.ofAddress 0x3F7F 0).column < 52) ∧
    ¬ ((pixel.ofAddress 0x3F7F 0).row < 80) := by
  decide

/-- C9, amended: every pixel produced by decoding has `roc_id < 16`; the pixel built by
`decode(address)` has `column < 64` and `row < 128`, the widths of the extracted fields;
the pixel built by `decodeRaw(raw)` has `roc_id = 0`, `column < 100` and a `row` that is
at most 80 or at least 186 (and below 256). -/
theorem decoded_pixel_bounds (address data : Int) (raw : Nat) :
    (pixel.ofAddress address data).roc_id < 16 ∧
    (pixel.ofAddress address data).column < 64 ∧
    (pixel.ofAddress address data).row < 128 ∧
    (pixel.ofRaw raw).roc_id = 0 ∧
    (pixel.ofRaw raw).column < 100 ∧
    ((pixel.ofRaw raw).row ≤ 80 ∨ 186 ≤ (pixel.ofRaw raw).row) ∧
    (pixel.ofRaw raw).row < 256 := by
  obtain ⟨hr, hc, hw, _⟩ :=
    decode_fields { roc_id := 0, column := 0, row := 0, value := data } address
  obtain ⟨_, hrow, hcol, hid⟩ :=
    decodeRaw_fields { roc_id := 0, column := 0, row := 0, value := 0 } raw
  have hcg := rawColGroup_le raw
  have hrg := rawRowGroup_le raw
  have h1 := and_1_le (rawRowGroup raw)
  simp only [pixel.ofAddress, pixel.ofRaw]
  rw [hr, hc, hw, hrow, hcol, hid]
  simp only [toUInt8]
  refine ⟨?_, ?_, ?_, ?_, ?_, ?_, ?_⟩ <;> first | omega | trivial

/-! ## Raw events -/

/-- C16: for every raw event, whatever words it holds and whatever its flags are, after
`Clear()` `GetSize()` is 0 and `IsStartError()`, `IsEndError()` and `IsOverflow()` are all
false; in particular for the event with the words `w1, w2, w3` added and the start-error
flag set, which before `Clear()` has size 3 and reports the start error. -/
theorem rawEvent.Clear_spec (e : rawEvent) (w1 w2 w3 : Nat) :
    e.Clear.GetSize = 0 ∧ e.Clear.IsStartError = false ∧ e.Clear.IsEndError = false ∧
    e.Clear.IsOverflow = false ∧ e.Clear = ⟨[], 0⟩ ∧
    ((((rawEvent.mk [] 0).Add w1).Add w2).Add w3).SetStartError.GetSize = 3 ∧
    ((((rawEvent.mk [] 0).Add w1).Add w2).Add w3).SetStartError.IsStartError = true ∧
    ((((rawEvent.mk [] 0).Add w1).Add w2).Add w3).SetStartError.Clear.GetSize = 0 ∧
    ((((rawEvent.mk [] 0).Add w1).Add w2).Add w3).SetStartError.Clear.IsStartError = false := by
  refine ⟨?_, ?_, ?_, ?_, ?_, ?_, ?_, ?_, ?_⟩ <;>
    simp [rawEvent.Clear, rawEvent.GetSize, rawEvent.IsStartError, rawEvent.IsEndError,
      rawEvent.IsOverflow, rawEvent.Add, rawEvent.SetStartError]

/-! ## DAQ channels -/

namespace CTestboard

/-- C1: on an in-range channel whose active flag is set, `Daq_Read` returns status 0 and
puts into `data` exactly the first `min (blocksize/2) |q|` words of the queue `q`, in
order, whatever `data` held before; the queue of the channel is afterwards the remaining
suffix, so that the returned words followed by the remaining ones are `q`; the queues of
the other channels and all active flags are unchanged; and an odd byte count `2k+1` reads
the same as `2k`. -/
theorem Daq_Read_fifo (tb : CTestboard) (data : List Nat) (blocksize available channel : Nat)
    (q : List Nat) (hs : tb.daq_status[channel]? = some true)
    (hq : tb.daq_buffer[channel]? = some q) :
    (Daq_Read tb data blocksize available channel).result = .ok 0 ∧
    (Daq_Read tb data blocksize available channel).data
      = q.take (min (blocksize / 2) q.length) ∧
    (Daq_Read tb data blocksize available channel).state.daq_buffer[channel]?
      = some (q.drop (min (blocksize / 2) q.length)) ∧
    (Daq_Read tb data blocksize available channel).data
      ++ q.drop (min (blocksize / 2) q.length) = q ∧
    (∀ c, c ≠ channel →
      (Daq_Read tb data blocksize available channel).state.daq_buffer[c]?
        = tb.daq_buffer[c]?) ∧
    (Daq_Read tb data blocksize available channel).state.daq_buffer.length
      = tb.daq_buffer.length ∧
    (Daq_Read tb data blocksize available channel).state.daq_status = tb.daq_status ∧
    (∀ k, Daq_Read tb data (2 * k + 1) available channel
      = Daq_Read tb data (2 * k) available channel) := by
  have hlen := getElem?_lt_length hq
  have hodd : ∀ k, (2 * k + 1) / 2 = 2 * k / 2 := fun k => by omega
  refine ⟨?_, ?_, ?_, ?_, ?_, ?_, ?_, ?_⟩
  · simp [Daq_Read, hs, hq]
  · simp [Daq_Read, hs, hq, copy_end_eq_min]
  · simp [Daq_Read, hs, hq, copy_end_eq_min, hlen]
  · simp [Daq_Read, hs, hq, copy_end_eq_min]
  · intro c hc
    simp [Daq_Read, hs, hq, List.getElem?_set_ne (Ne.symm hc)]
  · simp [Daq_Read, hs, hq]
  · simp [Daq_Read, hs, hq]
  · intro k
    simp [Daq_Read, hodd k]

/-- C1, at a concrete input: three buffered words, five bytes requested, channel 1 of 2. -/
theorem Daq_Read_fifo_witness :
    (⟨[[8], [1, 2, 3]], [false, true], [], 0, 0⟩ : CTestboard).daq_status[1]? = some true ∧
    (⟨[[8], [1, 2, 3]], [false, true], [], 0, 0⟩ : CTestboard).daq_buffer[1]?
      = some [1, 2, 3] ∧
    (Daq_Read ⟨[[8], [1, 2, 3]], [false, true], [], 0, 0⟩ [9] 5 7 1).result = .ok 0 ∧
    (Daq_Read ⟨[[8], [1, 2, 3]], [false, true], [], 0, 0⟩ [9] 5 7 1).data = [1, 2] ∧
    (Daq_Read ⟨[[8], [1, 2, 3]], [false, true], [], 0, 0⟩ [9] 5 7 1).state.daq_buffer[1]?
      = some [3] :=
  have h := Daq_Read_fifo ⟨[[8], [1, 2, 3]], [false, true], [], 0, 0⟩ [9] 5 7 1 [1, 2, 3]
    (by decide) (by decide)
  ⟨by decide, by decide, h.1, h.2.1, h.2.2.1⟩

/-- C2: `Daq_Read` on an active channel leaves `available` at the value the caller passed
in, whatever is left in the queue: on a one-channel board with queue `q` the output
`available` is the input `available` and the queue keeps the unread suffix; with
`q = [1, 2, 3]`, two bytes requested and `available = 7` on entry, two words are left in
the queue and `available` is still 7. -/
theorem Daq_Read_available_untouched (q data : List Nat) (blocksize available : Nat) :
    (Daq_Read ⟨[q], [true], [], 0, 0⟩ data blocksize available 0).available = available ∧
    (Daq_Read ⟨[q], [true], [], 0, 0⟩ data blocksize available 0).state.daq_buffer
      = [q.drop (min (blocksize / 2) q.length)] ∧
    (Daq_Read ⟨[[1, 2, 3]], [true], [], 0, 0⟩ [] 2 7 0).available = 7 ∧
    (Daq_Read ⟨[[1, 2, 3]], [true], [], 0, 0⟩ [] 2 7 0).state.daq_buffer = [[2, 3]] := by
  refine ⟨?_, ?_, by decide, by decide⟩
  · simp [Daq_Read]
  · simp [Daq_Read, copy_end_eq_min]

/-- C3: `Daq_Open` with `channel` equal to the number of channels passes the guard
`channel > daq_buffer.size()` and faults in `daq_buffer.at(channel)`; it does not
return 0. -/
theorem Daq_Open_at_size_faults (capacity : List Nat → Nat → Nat) (tb : CTestboard)
    (buffersize : Nat) :
    Daq_Open capacity tb buffersize tb.daq_buffer.length = ⟨.fault .out_of_range, tb⟩ := by
  simp [Daq_Open]

/-- C4, as stated, fails: after `Daq_Start` and `Daq_Stop` on channel 0 of a one-channel
board the active flag of the channel is set, not cleared, and `Daq_GetSize` reports the
two buffered words. -/
theorem Daq_Stop_leaves_active :
    ¬ ((Daq_Stop (Daq_Start ⟨[[5, 6]], [false], [], 0, 0⟩ 0).state 0).state.daq_status[0]?
        = some false) ∧
    (Daq_GetSize (Daq_Stop (Daq_Start ⟨[[5, 6]], [false], [], 0, 0⟩ 0).state 0).state 0).result
      = .ok 2 := by
  decide

/-- C4, amended: `Daq_Stop` returns with the test board exactly as it was, so the active
flag and the buffered words of the channel are the same as before the call, and
`Daq_GetSize` and `Daq_Read` answer as they did before; `Daq_Start` followed by `Daq_Stop`
on an in-range channel leaves the channel active with its queue unchanged. -/
theorem Daq_Stop_changes_nothing (tb : CTestboard) (channel : Nat)
    (h : channel < tb.daq_status.length) :
    Daq_Stop tb channel = ⟨.ok (), tb⟩ ∧
    Daq_GetSize (Daq_Stop tb channel).state channel = Daq_GetSize tb channel ∧
    (∀ data blocksize available,
      Daq_Read (Daq_Stop tb channel).state data blocksize available channel
        = Daq_Read tb data blocksize available channel) ∧
    (Daq_Stop (Daq_Start tb channel).state channel).result = .ok () ∧
    (Daq_Stop (Daq_Start tb channel).state channel).state.daq_status[channel]? = some true ∧
    (Daq_Stop (Daq_Start tb channel).state channel).state.daq_buffer = tb.daq_buffer := by
  have hget : tb.daq_status[channel]? = some (tb.daq_status[channel]) :=
    List.getElem?_eq_getElem h
  refine ⟨rfl, rfl, fun _ _ _ => rfl, rfl, ?_, ?_⟩
  · simp [Daq_Stop, Daq_Start, hget, h]
  · simp [Daq_Stop, Daq_Start, hget]

/-- C4, amended, at a concrete input. -/
theorem Daq_Stop_changes_nothing_witness :
    1 < (⟨[[5, 6], []], [false, false], [], 0, 0⟩ : CTestboard).daq_status.length ∧
    (Daq_Stop (Daq_Start ⟨[[5, 6], []], [false, false], [], 0, 0⟩ 1).state 1).state.daq_status[1]?
      = some true :=
  ⟨by decide,
    (Daq_Stop_changes_nothing ⟨[[5, 6], []], [false, false], [], 0, 0⟩ 1 (by decide)).2.2.2.2.1⟩

/-- C5: `Pg_Triggers` hands the buffers of channels `0 .. C-1` to the synthesis primitive,
`C` being the number of set active flags, not the buffers of the channels whose flag is
set: with two channels of which only channel 1 is active, one trigger passes the queue of
channel 0 to the primitive and leaves the queue of channel 1 as it was; with a primitive
that appends one word, channel 0 receives the event and channel 1 stays empty. -/
theorem Pg_Triggers_fills_leading_channels (fillRawData : FillRawData) (q0 q1 roci2c : List Nat)
    (tbmtype nrocs_loops period : Nat) :
    Pg_Triggers fillRawData ⟨[q0, q1], [false, true], roci2c, tbmtype, nrocs_loops⟩ 1 period
      = ⟨.ok (), ⟨[fillRawData 0 q0 tbmtype roci2c.length true 0 0 none, q1], [false, true],
          roci2c, tbmtype, nrocs_loops⟩⟩ ∧
    (Pg_Triggers appendEventNumber ⟨[[], []], [false, true], [], 0, 0⟩ 1 0).state.daq_buffer
      = [[0], []] := by
  refine ⟨?_, by decide⟩
  simp [Pg_Triggers, forLoop, forLoopFrom, fillChannel]

/-- C6: with no active flag set, `Pg_Triggers` and `LoopMultiRocAllPixelsCalibrate` reach
the division `size()/channels` with `channels = 0`: there is no guard before it and no
failure value is returned. -/
theorem triggers_divide_by_zero (fillRawData : FillRawData) (tb : CTestboard)
    (roci2cs : List Nat) (nTriggers period flags : Nat)
    (h : tb.daq_status.count true = 0) :
    Pg_Triggers fillRawData tb nTriggers period = ⟨.fault .division_by_zero, tb⟩ ∧
    LoopMultiRocAllPixelsCalibrate fillRawData tb roci2cs nTriggers flags
      = ⟨.fault .division_by_zero, tb⟩ := by
  simp [Pg_Triggers, LoopMultiRocAllPixelsCalibrate, h]

/-- C6, at a concrete input: two channels, none active. -/
theorem triggers_divide_by_zero_witness :
    (⟨[[], []], [false, false], [1, 2], 0, 0⟩ : CTestboard).daq_status.count true = 0 ∧
    Pg_Triggers appendEventNumber ⟨[[], []], [false, false], [1, 2], 0, 0⟩ 1 0
      = ⟨.fault .division_by_zero, ⟨[[], []], [false, false], [1, 2], 0, 0⟩⟩ ∧
    LoopMultiRocAllPixelsCalibrate appendEventNumber ⟨[[], []], [false, false], [1, 2], 0, 0⟩
        [1, 2] 1 0
      = ⟨.fault .division_by_zero, ⟨[[], []], [false, false], [1, 2], 0, 0⟩⟩ :=
  ⟨by decide,
    triggers_divide_by_zero appendEventNumber ⟨[[], []], [false, false], [1, 2], 0, 0⟩
      [1, 2] 1 0 0 (by decide)⟩

/-- C10: on an in-range channel, whatever its flag and queue, `Daq_Close` returns and
leaves the channel with an empty queue and a cleared active flag, so that `Daq_GetSize`
returns 0 right afterwards; the queues and flags of the other channels and the rest of
the test board are unchanged; on a channel beyond the queues it throws `out_of_range`
and changes nothing. -/
theorem Daq_Close_spec (tb : CTestboard) (channel : Nat) :
    (channel < tb.daq_buffer.length ∧ channel < tb.daq_status.length →
      (Daq_Close tb channel).result = .ok () ∧
      (Daq_Close tb channel).state.daq_buffer[channel]? = some [] ∧
      (Daq_Close tb channel).state.daq_status[channel]? = some false ∧
      Daq_GetSize (Daq_Close tb channel).state channel
        = ⟨.ok 0, (Daq_Close tb channel).state⟩ ∧
      (∀ c, c ≠ channel →
        (Daq_Close tb channel).state.daq_buffer[c]? = tb.daq_buffer[c]? ∧
        (Daq_Close tb channel).state.daq_status[c]? = tb.daq_status[c]?) ∧
      (Daq_Close tb channel).state.daq_buffer.length = tb.daq_buffer.length ∧
      (Daq_Close tb channel).state.daq_status.length = tb.daq_status.length ∧
      (Daq_Close tb channel).state.roci2c = tb.roci2c ∧
      (Daq_Close tb channel).state.tbmtype = tb.tbmtype) ∧
    (tb.daq_buffer.length ≤ channel →
      Daq_Close tb channel = ⟨.fault .out_of_range, tb⟩) := by
  constructor
  · rintro ⟨hb, hst⟩
    have hgb : tb.daq_buffer[channel]? = some (tb.daq_buffer[channel]) :=
      List.getElem?_eq_getElem hb
    have hgs : tb.daq_status[channel]? = some (tb.daq_status[channel]) :=
      List.getElem?_eq_getElem hst
    have hclose : Daq_Close tb channel
        = ⟨.ok (), { tb with daq_buffer := tb.daq_buffer.set channel [],
                             daq_status := tb.daq_status.set channel false }⟩ := by
      simp [Daq_Close, hgb, hgs]
    rw [hclose]
    refine ⟨rfl, ?_, ?_, ?_, ?_, ?_, ?_, rfl, rfl⟩
    · simp [hb]
    · simp [hst]
    · simp [Daq_GetSize, hst]
    · intro c hc
      simp [List.getElem?_set_ne (Ne.symm hc)]
    · simp
    · simp
  · intro hge
    simp [Daq_Close, List.getElem?_eq_none hge]

/-- C10, at concrete inputs: closing the active channel 0 that holds two words, and
closing channel 2 of a board with two channels. -/
theorem Daq_Close_spec_witness :
    (Daq_Close ⟨[[5, 6], [7]], [true, true], [], 0, 0⟩ 0).state
      = ⟨[[], [7]], [false, true], [], 0, 0⟩ ∧
    (Daq_GetSize (Daq_Close ⟨[[5, 6], [7]], [true, true], [], 0, 0⟩ 0).state 0).result
      = .ok 0 ∧
    Daq_Close ⟨[[5, 6], [7]], [true, true], [], 0, 0⟩ 2
      = ⟨.fault .out_of_range, ⟨[[5, 6], [7]], [true, true], [], 0, 0⟩⟩ :=
  ⟨by decide,
    by rw [((Daq_Close_spec ⟨[[5, 6], [7]], [true, true], [], 0, 0⟩ 0).1
      ⟨by decide, by decide⟩).2.2.2.1],
    (Daq_Close_spec ⟨[[5, 6], [7]], [true, true], [], 0, 0⟩ 2).2 (by decide)⟩

/-- C11: on an in-range channel whose active flag is not set, whatever is buffered,
`Daq_Read` (with either argument list) returns status 0 with `data` emptied and
`available = 0` and leaves the test board, so every queue and flag, as it was; the same
holds right after `Daq_Open` on that channel, which changes nothing on the board. -/
theorem Daq_Read_inactive (capacity : List Nat → Nat → Nat) (tb : CTestboard)
    (data : List Nat) (buffersize blocksize available channel : Nat)
    (hs : tb.daq_status[channel]? = some false) :
    Daq_Read tb data blocksize available channel = ⟨.ok 0, [], 0, tb⟩ ∧
    Daq_Read3 tb data blocksize channel = ⟨.ok 0, [], 0, tb⟩ ∧
    (Daq_Open capacity tb buffersize channel).state = tb ∧
    Daq_Read (Daq_Open capacity tb buffersize channel).state data blocksize available channel
      = ⟨.ok 0, [], 0, tb⟩ := by
  have hread : ∀ av, Daq_Read tb data blocksize av channel = ⟨.ok 0, [], 0, tb⟩ := by
    intro av
    simp [Daq_Read, hs]
  have hopen : (Daq_Open capacity tb buffersize channel).state = tb := by
    unfold Daq_Open
    split
    · rfl
    · split <;> rfl
  refine ⟨hread available, hread 0, hopen, ?_⟩
  rw [hopen]
  exact hread available

/-- C11, at a concrete input: channel 0 opened with 1000 bytes and not started, holding
two words, read with 100 bytes. -/
theorem Daq_Read_inactive_witness :
    (⟨[[5, 6]], [false], [], 0, 0⟩ : CTestboard).daq_status[0]? = some false ∧
    Daq_Read (Daq_Open exactCapacity ⟨[[5, 6]], [false], [], 0, 0⟩ 1000 0).state [9] 100 7 0
      = ⟨.ok 0, [], 0, ⟨[[5, 6]], [false], [], 0, 0⟩⟩ :=
  ⟨by decide,
    (Daq_Read_inactive exactCapacity ⟨[[5, 6]], [false], [], 0, 0⟩ [9] 1000 100 7 0
      (by decide)).2.2.2⟩

/-- C12: on an in-range channel with active flag `b` and queue `q`, `Daq_GetSize` returns
the number of words of `q` (as the `uint32_t` it is returned in, so the number itself
whenever it is below `2^32`) when `b` is set and 0 when it is not, and leaves the test
board, so every queue and flag, as it was. -/
theorem Daq_GetSize_spec (tb : CTestboard) (channel : Nat) (b : Bool) (q : List Nat)
    (hs : tb.daq_status[channel]? = some b) (hq : tb.daq_buffer[channel]? = some q) :
    Daq_GetSize tb channel = ⟨.ok (if b then q.length % 2 ^ 32 else 0), tb⟩ ∧
    (q.length < 2 ^ 32 → Daq_GetSize tb channel = ⟨.ok (if b then q.length else 0), tb⟩) := by
  have h1 : Daq_GetSize tb channel = ⟨.ok (if b then q.length % 2 ^ 32 else 0), tb⟩ := by
    cases b <;> simp [Daq_GetSize, hs, hq]
  refine ⟨h1, fun hlen => ?_⟩
  rw [h1, Nat.mod_eq_of_lt hlen]

/-- C12, at concrete inputs: an active channel with three words and an inactive channel
with two. -/
theorem Daq_GetSize_spec_witness :
    Daq_GetSize ⟨[[1, 2, 3], [5, 6]], [true, false], [], 0, 0⟩ 0
      = ⟨.ok 3, ⟨[[1, 2, 3], [5, 6]], [true, false], [], 0, 0⟩⟩ ∧
    Daq_GetSize ⟨[[1, 2, 3], [5, 6]], [true, false], [], 0, 0⟩ 1
      = ⟨.ok 0, ⟨[[1, 2, 3], [5, 6]], [true, false], [], 0, 0⟩⟩ :=
  ⟨(Daq_GetSize_spec ⟨[[1, 2, 3], [5, 6]], [true, false], [], 0, 0⟩ 0 true [1, 2, 3]
      (by decide) (by decide)).2 (by decide),
    (Daq_GetSize_spec ⟨[[1, 2, 3], [5, 6]], [true, false], [], 0, 0⟩ 1 false [5, 6]
      (by decide) (by decide)).2 (by decide)⟩

/-- C17: `Trigger_Select(src)` returns with the TBM type equal to `TBM_EMU` if
`(src & 0x00F0) != 0` or `src = 0x0100`, and with the TBM type it had otherwise, so the
only value it ever switches to is `TBM_EMU`; the queues, the active flags and the
chip-address set are unchanged in both cases. -/
theorem Trigger_Select_spec (TBM_EMU : Nat) (tb : CTestboard) (src : Nat) :
    (Trigger_Select TBM_EMU tb src).result = .ok () ∧
    (Trigger_Select TBM_EMU tb src).state.tbmtype
      = (if (src &&& 0x00F0) ≠ 0 ∨ src = 0x0100 then TBM_EMU else tb.tbmtype) ∧
    ((Trigger_Select TBM_EMU tb src).state.tbmtype = TBM_EMU ∨
      (Trigger_Select TBM_EMU tb src).state.tbmtype = tb.tbmtype) ∧
    (Trigger_Select TBM_EMU tb src).state.daq_buffer = tb.daq_buffer ∧
    (Trigger_Select TBM_EMU tb src).state.daq_status = tb.daq_status ∧
    (Trigger_Select TBM_EMU tb src).state.roci2c = tb.roci2c ∧
    (Trigger_Select TBM_EMU tb src).state.nrocs_loops = tb.nrocs_loops := by
  unfold Trigger_Select
  split
  · exact ⟨rfl, rfl, Or.inl rfl, rfl, rfl, rfl, rfl⟩
  · exact ⟨rfl, rfl, Or.inr rfl, rfl, rfl, rfl, rfl⟩

/-- C15: starting from an empty chip-address set, after any finite sequence of
`roc_I2cAddr` calls the set has no duplicate and is the list of the distinct addresses of
the sequence in order of first occurrence (a duplicate-free list with the same members as
the sequence); in any state, a call with an address already present leaves the test board
unchanged, a call with a new address appends it at the end, and a repeated call changes
nothing any more. -/
theorem roc_I2cAddr_spec (tb : CTestboard) (addrs : List Nat) (i2c : Nat) :
    (tb.roci2c = [] →
      (roc_I2cAddr_all tb addrs).roci2c = firstOccurrences addrs ∧
      (roc_I2cAddr_all tb addrs).roci2c.Nodup ∧
      (∀ a, a ∈ (roc_I2cAddr_all tb addrs).roci2c ↔ a ∈ addrs)) ∧
    (i2c ∈ tb.roci2c → roc_I2cAddr tb i2c = ⟨.ok (), tb⟩) ∧
    (i2c ∉ tb.roci2c →
      roc_I2cAddr tb i2c = ⟨.ok (), { tb with roci2c := tb.roci2c ++ [i2c] }⟩) ∧
    roc_I2cAddr (roc_I2cAddr tb i2c).state i2c = ⟨.ok (), (roc_I2cAddr tb i2c).state⟩ := by
  refine ⟨?_, ?_, ?_, ?_⟩
  · intro h0
    have h := roc_I2cAddr_all_roci2c addrs tb
    rw [h0] at h
    simp only [List.nil_append, List.not_mem_nil, not_false_eq_true, decide_True,
      List.filter_true] at h
    rw [h]
    exact ⟨rfl, firstOccurrences_nodup addrs, firstOccurrences_mem addrs⟩
  · intro hin
    simp [roc_I2cAddr, hin]
  · intro hnot
    simp [roc_I2cAddr, hnot]
  · by_cases h : i2c ∈ tb.roci2c
    · simp [roc_I2cAddr, h]
    · simp [roc_I2cAddr, h]

/-- C15, at a concrete input: the addresses 3, 1, 3, 2, 1 from the empty set, and a
repeated and a new address on the set `[3, 1]`. -/
theorem roc_I2cAddr_spec_witness :
    (roc_I2cAddr_all ⟨[], [], [], 0, 0⟩ [3, 1, 3, 2, 1]).roci2c = [3, 1, 2] ∧
    roc_I2cAddr ⟨[], [], [3, 1], 0, 0⟩ 1 = ⟨.ok (), ⟨[], [], [3, 1], 0, 0⟩⟩ ∧
    roc_I2cAddr ⟨[], [], [3, 1], 0, 0⟩ 2 = ⟨.ok (), ⟨[], [], [3, 1, 2], 0, 0⟩⟩ :=
  ⟨((roc_I2cAddr_spec ⟨[], [], [], 0, 0⟩ [3, 1, 3, 2, 1] 0).1 rfl).1,
    (roc_I2cAddr_spec ⟨[], [], [3, 1], 0, 0⟩ [] 1).2.1 (by decide),
    (roc_I2cAddr_spec ⟨[], [], [3, 1], 0, 0⟩ [] 2).2.2.1 (by decide)⟩

/-- C13: with `C >= 1` set active flags (and a queue for each of the channels
`0 .. C-1`), `Pg_Triggers` with `n` triggers returns after issuing exactly the `n * C`
synthesis calls of `triggerCalls`, one after the other: the call at position `t * C + ch`
is the one for trigger `t` (event number `t`) and channel index `ch`, with
`roc_per_ch = |roci2c| / C`; hence with a primitive that appends `L` words per call, flag 0
the only one set and an empty queue 0, `Daq_GetSize(0)` afterwards returns `n * L` (as a
`uint32_t`, so `n * L` itself whenever that is below `2^32`). -/
theorem Pg_Triggers_spec (fillRawData : FillRawData) (tb : CTestboard) (n period : Nat)
    (hC : 1 ≤ tb.daq_status.count true)
    (hlen : tb.daq_status.count true ≤ tb.daq_buffer.length) :
    Pg_Triggers fillRawData tb n period
      = runCalls fillRawData (triggerCalls n (tb.daq_status.count true)
          (tb.roci2c.length / tb.daq_status.count true)) tb ∧
    (Pg_Triggers fillRawData tb n period).result = .ok () ∧
    (triggerCalls n (tb.daq_status.count true)
      (tb.roci2c.length / tb.daq_status.count true)).length = n * tb.daq_status.count true ∧
    (∀ t ch, t < n → ch < tb.daq_status.count true →
      (triggerCalls n (tb.daq_status.count true)
        (tb.roci2c.length / tb.daq_status.count true))[t * tb.daq_status.count true + ch]?
        = some ⟨t, ch, tb.roci2c.length / tb.daq_status.count true, true, 0, 0, none⟩) ∧
    (∀ L : Nat,
      (∀ event q tbmtype roc_per_ch flag col row flags,
        (fillRawData event q tbmtype roc_per_ch flag col row flags).length = q.length + L) →
      tb.daq_status[0]? = some true → tb.daq_status.count true = 1 →
      tb.daq_buffer[0]? = some [] →
      (Daq_GetSize (Pg_Triggers fillRawData tb n period).state 0).result
        = .ok (n * L % 2 ^ 32) ∧
      (n * L < 2 ^ 32 →
        (Daq_GetSize (Pg_Triggers fillRawData tb n period).state 0).result = .ok (n * L))) := by
  have hne : tb.daq_status.count true ≠ 0 := by omega
  have heq := Pg_Triggers_eq_runCalls fillRawData tb n period hne
  have hblock : ∀ t : Nat, ((List.range (tb.daq_status.count true)).map fun ch =>
      (⟨t, ch, tb.roci2c.length / tb.daq_status.count true, true, 0, 0, none⟩ : FillCall)).length
      = tb.daq_status.count true := by
    intro t
    simp
  have hok := runCalls_ok fillRawData (triggerCalls n (tb.daq_status.count true)
    (tb.roci2c.length / tb.daq_status.count true)) tb (fun c hc =>
    lt_of_lt_of_le (triggerCalls_channel_lt n _ _ c hc) hlen)
  refine ⟨heq, ?_, ?_, ?_, ?_⟩
  · rw [heq]
    exact hok.1
  · exact length_flatMap_range _ _ hblock n
  · intro t ch ht hch
    rw [triggerCalls, getElem?_flatMap_range _ _ hblock n t ch ht hch]
    simp [List.getElem?_range hch]
  · intro L hfill hs h1 hq
    have hcalls : ∀ c ∈ triggerCalls n (tb.daq_status.count true)
        (tb.roci2c.length / tb.daq_status.count true), c.channel = 0 := by
      intro c hc
      have := triggerCalls_channel_lt n _ _ c hc
      omega
    obtain ⟨q1, hq1, hl1⟩ := runCalls_channel_length fillRawData L 0 hfill _ tb [] hcalls hq
    have hlenCalls : (triggerCalls n (tb.daq_status.count true)
        (tb.roci2c.length / tb.daq_status.count true)).length = n := by
      have hl : (triggerCalls n (tb.daq_status.count true)
          (tb.roci2c.length / tb.daq_status.count true)).length
          = n * tb.daq_status.count true := length_flatMap_range _ _ hblock n
      rw [hl, h1, Nat.mul_one]
    have hsize : (Daq_GetSize (Pg_Triggers fillRawData tb n period).state 0).result
        = .ok (n * L % 2 ^ 32) := by
      rw [heq]
      simp only [Daq_GetSize, hok.2.2.1, hs, hq1, hl1, hlenCalls, List.length_nil, Nat.zero_add]
    refine ⟨hsize, fun hlt => ?_⟩
    rw [hsize, Nat.mod_eq_of_lt hlt]

/-- C13, at concrete inputs: five triggers on a board with three chips and two active
channels, and five triggers with channel 0 the only active channel and a primitive that
appends one word per call. -/
theorem Pg_Triggers_spec_witness :
    1 ≤ (⟨[[], [7]], [true, true], [1, 2, 3], 0, 0⟩ : CTestboard).daq_status.count true ∧
    (Pg_Triggers appendEventNumber ⟨[[], [7]], [true, true], [1, 2, 3], 0, 0⟩ 5 0).result
      = .ok () ∧
    (triggerCalls 5 2 (3 / 2)).length = 5 * 2 ∧
    (triggerCalls 5 2 (3 / 2))[3 * 2 + 1]? = some ⟨3, 1, 1, true, 0, 0, none⟩ ∧
    (Daq_GetSize (Pg_Triggers appendEventNumber ⟨[[]], [true], [1], 0, 0⟩ 5 0).state 0).result
      = .ok (5 * 1) :=
  have h := Pg_Triggers_spec appendEventNumber ⟨[[], [7]], [true, true], [1, 2, 3], 0, 0⟩ 5 0
    (by decide) (by decide)
  ⟨by decide, h.2.1, h.2.2.1, h.2.2.2.1 3 1 (by decide) (by decide),
    ((Pg_Triggers_spec appendEventNumber ⟨[[]], [true], [1], 0, 0⟩ 5 0
      (by decide) (by decide)).2.2.2.2 1
        (fun event q _ _ _ _ _ _ => by simp [appendEventNumber])
        (by decide) (by decide) (by decide)).2 (by decide)⟩

/-- C14: for every chip-address list, every trigger count `n` below `2^16` and every test
board with `C >= 1` set active flags (and a queue for each of the channels `0 .. C-1`),
`LoopMultiRocAllPixelsCalibrate` returns true after issuing exactly the `52 * 80 * n * C`
synthesis calls of `calibrateCalls`, one after the other: the call at rank
`((i*80 + j)*n + k)*C + ch` of the lexicographic order of (column, row, trigger, channel)
is the one for column `i`, row `j` and channel index `ch`, with event number
`(i*80 + j)*n + k` and `roc_per_ch = |roci2cs| / C`. -/
theorem LoopMultiRocAllPixelsCalibrate_spec (fillRawData : FillRawData) (tb : CTestboard)
    (roci2cs : List Nat) (n flags : Nat)
    (hC : 1 ≤ tb.daq_status.count true)
    (hlen : tb.daq_status.count true ≤ tb.daq_buffer.length) (hn : n < 65536) :
    LoopMultiRocAllPixelsCalibrate fillRawData tb roci2cs n flags
      = ⟨.ok true, (runCalls fillRawData (calibrateCalls n (tb.daq_status.count true)
          (roci2cs.length / tb.daq_status.count true) flags) tb).state⟩ ∧
    (runCalls fillRawData (calibrateCalls n (tb.daq_status.count true)
      (roci2cs.length / tb.daq_status.count true) flags) tb).result = .ok () ∧
    (calibrateCalls n (tb.daq_status.count true)
      (roci2cs.length / tb.daq_status.count true) flags).length
      = 52 * 80 * n * tb.daq_status.count true ∧
    (∀ i j k ch, i < 52 → j < 80 → k < n → ch < tb.daq_status.count true →
      (calibrateCalls n (tb.daq_status.count true)
        (roci2cs.length / tb.daq_status.count true) flags)[((i * 80 + j) * n + k)
          * tb.daq_status.count true + ch]?
        = some ⟨(i * 80 + j) * n + k, ch, roci2cs.length / tb.daq_status.count true, false,
            i, j, some flags⟩) := by
  have hne : tb.daq_status.count true ≠ 0 := by omega
  have hok := runCalls_ok fillRawData (calibrateCalls n (tb.daq_status.count true)
    (roci2cs.length / tb.daq_status.count true) flags) tb (fun c hc =>
    lt_of_lt_of_le (calibrateCalls_channel_lt n _ _ _ c hc) hlen)
  obtain ⟨hres, hstate⟩ := calibrateSweep_tracks fillRawData (tb.daq_status.count true)
    (roci2cs.length / tb.daq_status.count true) flags n tb hn
  refine ⟨?_, hok.1, calibrateCalls_length _ _ _ _, ?_⟩
  · simp only [LoopMultiRocAllPixelsCalibrate, hne, if_false, ROC_NUMCOLS, ROC_NUMROWS]
    rw [hok.1] at hres
    rcases hO : forLoop 52 (fun i s => forLoop 80 (fun j s => forLoop n (fun _k s =>
        calibrateTrigger fillRawData (tb.daq_status.count true)
          (roci2cs.length / tb.daq_status.count true) flags i j s) s) s) (tb, 0)
      with ⟨r, s1⟩
    rw [hO] at hres hstate
    simp only at hres hstate
    subst hres
    simp only [hstate]
  · intro i j k ch hi hj hk hch
    exact calibrateCalls_getElem? n _ _ flags i j k ch hi hj hk hch

/-- C14, at a concrete input: one trigger per pixel on a board with two chips and channel 0
the only active channel. -/
theorem LoopMultiRocAllPixelsCalibrate_spec_witness :
    1 ≤ (⟨[[]], [true], [], 0, 0⟩ : CTestboard).daq_status.count true ∧
    (⟨[[]], [true], [], 0, 0⟩ : CTestboard).daq_status.count true
      ≤ (⟨[[]], [true], [], 0, 0⟩ : CTestboard).daq_buffer.length ∧
    (LoopMultiRocAllPixelsCalibrate appendEventNumber ⟨[[]], [true], [], 0, 0⟩ [1, 2] 1 0).result
      = .ok true ∧
    (calibrateCalls 1 1 ([1, 2].length / 1) 0).length = 52 * 80 * 1 * 1 ∧
    (calibrateCalls 1 1 ([1, 2].length / 1) 0)[((51 * 80 + 79) * 1 + 0) * 1 + 0]?
      = some ⟨(51 * 80 + 79) * 1 + 0, 0, [1, 2].length / 1, false, 51, 79, some 0⟩ :=
  have h := LoopMultiRocAllPixelsCalibrate_spec appendEventNumber ⟨[[]], [true], [], 0, 0⟩
    [1, 2] 1 0 (by decide) (by decide) (by decide)
  ⟨by decide, by decide, congrArg Outcome.result h.1, h.2.2.1,
    h.2.2.2 51 79 0 0 (by decide) (by decide) (by decide) (by decide)⟩

end CTestboard

end pxar
